import Mathlib

/-!
Verification of the patch-feature core of `ipam-tutorials`.

Shallow embedding of the two numerical routines in
`py_tutorials/3_2_patch_features.ipynb`:

* `contrast_normalize` — per-patch contrast normalization of an N×D batch;
* `ZCA_whiten` — ZCA whitening fit (mean vector, whitening matrix) on the
  contrast-normalized batch.

Batches are `Matrix (Fin n) (Fin d) ℝ` (row = patch, column = feature).
The notebook's global hyperparameters (`remove_mean`, `hard_beta`, `beta`,
`gamma`) are passed as explicit arguments.  `np.linalg.eigh` is an external
library routine; it is modelled as an oracle parameter returning an
eigenvalue vector and an eigenvector matrix, and theorems that depend on
its output state the eigendecomposition equations as hypotheses.
-/

open scoped BigOperators Matrix

noncomputable section

namespace PatchFeatures

/-! ## Patch Normalizer (`contrast_normalize`) -/

/-- The numpy expression `X.mean(1)`: the arithmetic mean of row `i` over
the feature axis. -/
def rowMean {n d : ℕ} (X : Matrix (Fin n) (Fin d) ℝ) (i : Fin n) : ℝ :=
  (∑ j, X i j) / d

/-- The per-row offset `xm`: `X.mean(1)` when `remove_mean`, else
`X[:,0] * 0`, i.e. the zero vector (the numpy expression requires `d ≥ 1`
and always evaluates to zero). -/
def xm {n d : ℕ} (remove_mean : Bool) (X : Matrix (Fin n) (Fin d) ℝ)
    (i : Fin n) : ℝ :=
  if remove_mean then rowMean X i else 0

/-- Row centering `Xc = X - xm[:, None]`: each row minus its offset. -/
def Xc {n d : ℕ} (remove_mean : Bool) (X : Matrix (Fin n) (Fin d) ℝ) :
    Matrix (Fin n) (Fin d) ℝ :=
  Matrix.of fun i j => X i j - xm remove_mean X i

/-- The quantity `l2 = (Xc * Xc).sum(axis=1)`: squared L2 norm of each
centered row. -/
def l2 {n d : ℕ} (remove_mean : Bool) (X : Matrix (Fin n) (Fin d) ℝ)
    (i : Fin n) : ℝ :=
  ∑ j, Xc remove_mean X i j * Xc remove_mean X i j

/-- The per-row squared denominator: `np.maximum(l2, beta)` when
`hard_beta`, else `l2 + beta`. -/
def div2 (hard_beta : Bool) (beta l2v : ℝ) : ℝ :=
  if hard_beta then max l2v beta else l2v + beta

/-- The normalizer body: `Xc / np.sqrt(div2[:, None])`.
(The notebook's `figure/title/hist` calls are plotting side effects with no
influence on the returned value and are not modelled.) -/
def contrast_normalize {n d : ℕ} (remove_mean hard_beta : Bool) (beta : ℝ)
    (X : Matrix (Fin n) (Fin d) ℝ) : Matrix (Fin n) (Fin d) ℝ :=
  Matrix.of fun i j =>
    Xc remove_mean X i j / Real.sqrt (div2 hard_beta beta (l2 remove_mean X i))

/-- The claim's description of the normalizer, written independently from
the spec's words: subtract the arithmetic row mean (or zero), then divide
the centered row by the square root of `max(norm², beta)` (hard) or
`norm² + beta` (soft). -/
def contrast_normalize_claim {n d : ℕ} (remove_mean hard_beta : Bool)
    (beta : ℝ) (X : Matrix (Fin n) (Fin d) ℝ) : Matrix (Fin n) (Fin d) ℝ :=
  Matrix.of fun i j =>
    (X i j - (if remove_mean then (∑ k, X i k) / d else 0)) /
      Real.sqrt
        (if hard_beta then
          max (∑ k, (X i k - (if remove_mean then (∑ k2, X i k2) / d else 0)) ^ 2) beta
        else
          (∑ k, (X i k - (if remove_mean then (∑ k2, X i k2) / d else 0)) ^ 2) + beta)

/-- C1: For every N×D real batch and configuration (remove_mean, hard_beta,
beta > 0), `contrast_normalize` computes exactly the centered-then-scaled
batch described by the spec: center by the row mean (or zero), divide by
`√(max(norm², β))` (hard) resp. `√(norm² + β)` (soft). -/
theorem contrast_normalize_matches_claim {n d : ℕ}
    (remove_mean hard_beta : Bool) (beta : ℝ) (hbeta : 0 < beta)
    (X : Matrix (Fin n) (Fin d) ℝ) :
    contrast_normalize remove_mean hard_beta beta X =
      contrast_normalize_claim remove_mean hard_beta beta X := by
  ext i j
  simp only [contrast_normalize, contrast_normalize_claim, Matrix.of_apply,
    Xc, xm, rowMean, l2, div2, pow_two]

/-- Witness for C1 at a concrete batch and configuration. -/
theorem contrast_normalize_matches_claim_witness :
    0 < (1 : ℝ) ∧
      contrast_normalize true true 1 (Matrix.of ![![(3 : ℝ), 5]]) =
        contrast_normalize_claim true true 1 (Matrix.of ![![(3 : ℝ), 5]]) :=
  ⟨by norm_num,
    contrast_normalize_matches_claim true true 1 (by norm_num)
      (Matrix.of ![![(3 : ℝ), 5]])⟩

/-- With `hard_beta = true` the squared denominator is the clamp. -/
theorem div2_true (beta l2v : ℝ) : div2 true beta l2v = max l2v beta := rfl

/-- With `hard_beta = false` the squared denominator is the shift. -/
theorem div2_false (beta l2v : ℝ) : div2 false beta l2v = l2v + beta := rfl

/-- The per-row squared L2 norm is a sum of squares, hence nonnegative. -/
theorem l2_nonneg {n d : ℕ} (rm : Bool) (X : Matrix (Fin n) (Fin d) ℝ)
    (i : Fin n) : 0 ≤ l2 rm X i :=
  Finset.sum_nonneg fun j _ => mul_self_nonneg _

/-- The squared denominator dominates the row's squared norm and, when
`beta > 0`, is positive. -/
theorem div2_pos {n d : ℕ} (rm hb : Bool) {beta : ℝ} (hbeta : 0 < beta)
    (X : Matrix (Fin n) (Fin d) ℝ) (i : Fin n) :
    0 < div2 hb beta (l2 rm X i) := by
  cases hb with
  | false => exact add_pos_of_nonneg_of_pos (l2_nonneg rm X i) hbeta
  | true => exact lt_of_lt_of_le hbeta (le_max_right _ _)

/-- The squared L2 norm of an output row is `l2 / div2` whenever the
squared denominator is positive. -/
theorem sum_sq_output {n d : ℕ} (rm hb : Bool) (beta : ℝ)
    (X : Matrix (Fin n) (Fin d) ℝ) (i : Fin n)
    (hpos : 0 < div2 hb beta (l2 rm X i)) :
    ∑ j, contrast_normalize rm hb beta X i j ^ 2 =
      l2 rm X i / div2 hb beta (l2 rm X i) := by
  simp only [contrast_normalize, Matrix.of_apply, div_pow]
  rw [← Finset.sum_div, Real.sq_sqrt hpos.le]
  congr 1
  exact Finset.sum_congr rfl fun j _ => pow_two _

/-- C3: with `hard_beta = true` and `beta > 0`, every row whose centered
squared norm is at least `beta` has squared L2 norm exactly 1 after
normalization (the clamp `max(l2, beta)` reduces to `l2`). -/
theorem hard_beta_unit_norm {n d : ℕ} (rm : Bool) (beta : ℝ)
    (hbeta : 0 < beta) (X : Matrix (Fin n) (Fin d) ℝ) (i : Fin n)
    (h : beta ≤ l2 rm X i) :
    ∑ j, contrast_normalize rm true beta X i j ^ 2 = 1 := by
  have hl2 : 0 < l2 rm X i := lt_of_lt_of_le hbeta h
  have hd : div2 true beta (l2 rm X i) = l2 rm X i := max_eq_left h
  rw [sum_sq_output rm true beta X i (by rw [hd]; exact hl2), hd,
    div_self (ne_of_gt hl2)]

/-- Witness for C3: the single row `[2, 0]` has centered squared norm 4 ≥ 1
and normalizes to a unit-norm row. -/
theorem hard_beta_unit_norm_witness :
    (0 < (1 : ℝ) ∧ (1 : ℝ) ≤ l2 false (Matrix.of ![![(2 : ℝ), 0]]) 0) ∧
      ∑ j, contrast_normalize false true 1 (Matrix.of ![![(2 : ℝ), 0]]) 0 j ^ 2 = 1 := by
  have h1 : (1 : ℝ) ≤ l2 false (Matrix.of ![![(2 : ℝ), 0]]) 0 := by
    simp [l2, Xc, xm, Fin.sum_univ_two]
    norm_num
  exact ⟨⟨by norm_num, h1⟩,
    hard_beta_unit_norm false 1 (by norm_num) (Matrix.of ![![(2 : ℝ), 0]]) 0 h1⟩

/-- C10: for `beta > 0` and any flag configuration, every output row of
`contrast_normalize` has squared L2 norm at most 1, since the squared
denominator always dominates the centered row's squared norm. -/
theorem output_sq_norm_le_one {n d : ℕ} (rm hb : Bool) (beta : ℝ)
    (hbeta : 0 < beta) (X : Matrix (Fin n) (Fin d) ℝ) (i : Fin n) :
    ∑ j, contrast_normalize rm hb beta X i j ^ 2 ≤ 1 := by
  rw [sum_sq_output rm hb beta X i (div2_pos rm hb hbeta X i)]
  rw [div_le_one (div2_pos rm hb hbeta X i)]
  cases hb with
  | false => exact le_add_of_nonneg_right hbeta.le
  | true => exact le_max_left _ _

/-- Witness for C10 on a concrete row and configuration. -/
theorem output_sq_norm_le_one_witness :
    0 < (1 : ℝ) ∧
      ∑ j, contrast_normalize true false 1 (Matrix.of ![![(3 : ℝ), 7]]) 0 j ^ 2 ≤ 1 :=
  ⟨by norm_num,
    output_sq_norm_le_one true false 1 (by norm_num) (Matrix.of ![![(3 : ℝ), 7]]) 0⟩

/-- C5: with `hard_beta = true` and `beta > 0` the divisor
`√(div2 ...)` used by `contrast_normalize` is positive for every row (in
particular for an all-zero row), while with `hard_beta = false` and
`beta = 0` the divisor of an all-zero row is exactly zero (division by
zero). -/
theorem zero_row_denominators {n d : ℕ} (rm : Bool) (beta : ℝ)
    (hbeta : 0 < beta) (X : Matrix (Fin n) (Fin d) ℝ) (i0 : Fin n)
    (hz : ∀ j, X i0 j = 0) :
    (∀ i, 0 < Real.sqrt (div2 true beta (l2 rm X i))) ∧
      Real.sqrt (div2 false 0 (l2 rm X i0)) = 0 := by
  constructor
  · intro i
    exact Real.sqrt_pos.2 (div2_pos rm true hbeta X i)
  · have hxm : xm rm X i0 = 0 := by
      cases rm with
      | false => rfl
      | true => simp [xm, rowMean, hz]
    have hl2 : l2 rm X i0 = 0 := by
      simp [l2, Xc, hxm, hz]
    simp [div2, hl2]

/-- Witness for C5: the batch with the single all-zero row. -/
theorem zero_row_denominators_witness :
    (0 < (1 : ℝ) ∧ ∀ j, Matrix.of ![![(0 : ℝ), 0]] 0 j = 0) ∧
      ((∀ i, 0 < Real.sqrt (div2 true 1 (l2 true (Matrix.of ![![(0 : ℝ), 0]]) i))) ∧
        Real.sqrt (div2 false 0 (l2 true (Matrix.of ![![(0 : ℝ), 0]]) 0)) = 0) := by
  have hz : ∀ j, Matrix.of ![![(0 : ℝ), 0]] 0 j = 0 := by
    intro j
    fin_cases j <;> simp
  exact ⟨⟨by norm_num, hz⟩,
    zero_row_denominators true 1 (by norm_num) (Matrix.of ![![(0 : ℝ), 0]]) 0 hz⟩

/-- C7 (counterexample): the row `[2, 0]` has centered squared norm 4,
which is at least `beta = 1`, yet the `hard_beta = true` and
`hard_beta = false` outputs differ on it — refuting that the two settings
differ only in rows with squared norm below `beta`. -/
theorem hard_soft_differ_on_large_row :
    (1 : ℝ) ≤ l2 false (Matrix.of ![![(2 : ℝ), 0]]) 0 ∧
      contrast_normalize false true 1 (Matrix.of ![![(2 : ℝ), 0]]) ≠
        contrast_normalize false false 1 (Matrix.of ![![(2 : ℝ), 0]]) := by
  have hl2 : l2 false (Matrix.of ![![(2 : ℝ), 0]]) 0 = 4 := by
    simp [l2, Xc, xm, Fin.sum_univ_two]
    norm_num
  refine ⟨by rw [hl2]; norm_num, fun h => ?_⟩
  have h00 := congrFun (congrFun h 0) 0
  simp only [contrast_normalize, Matrix.of_apply, div2_true, div2_false, hl2,
    Xc, xm] at h00
  have h4 : Real.sqrt (max (4 : ℝ) 1) = 2 := by
    rw [show max (4 : ℝ) 1 = 2 ^ 2 by norm_num, Real.sqrt_sq (by norm_num)]
  have hx : Matrix.of ![![(2 : ℝ), 0]] 0 0 = 2 := rfl
  simp only [hx, h4] at h00
  norm_num at h00
  field_simp at h00
  have h25 := Real.sq_sqrt (by norm_num : (0 : ℝ) ≤ 5)
  rw [h00] at h25
  norm_num at h25

/-- C7 (amended): with `beta > 0` the hard and soft settings agree on a row
exactly when its centered row is identically zero; and on rows with
squared norm at least `beta` the hard output coincides with the soft
output taken in the limit `beta → 0` (i.e. the `hard_beta = false` formula
with `beta = 0`). -/
theorem hard_soft_row_agreement {n d : ℕ} (rm : Bool) (beta : ℝ)
    (hbeta : 0 < beta) (X : Matrix (Fin n) (Fin d) ℝ) (i : Fin n) :
    ((∀ j, contrast_normalize rm true beta X i j =
        contrast_normalize rm false beta X i j) ↔ ∀ j, Xc rm X i j = 0) ∧
      (beta ≤ l2 rm X i →
        ∀ j, contrast_normalize rm true beta X i j =
          contrast_normalize rm false 0 X i j) := by
  constructor
  · constructor
    · intro h
      by_contra hne
      push_neg at hne
      obtain ⟨j0, hj0⟩ := hne
      have hl2pos : 0 < l2 rm X i := by
        have hle : Xc rm X i j0 * Xc rm X i j0 ≤ l2 rm X i :=
          Finset.single_le_sum (f := fun j => Xc rm X i j * Xc rm X i j)
            (fun j _ => mul_self_nonneg _) (Finset.mem_univ j0)
        exact lt_of_lt_of_le (mul_self_pos.2 hj0) hle
      have hlt : div2 true beta (l2 rm X i) < div2 false beta (l2 rm X i) := by
        rw [div2_true, div2_false]
        rcases le_total beta (l2 rm X i) with hc | hc
        · rw [max_eq_left hc]
          linarith
        · rw [max_eq_right hc]
          linarith
      have hmpos : 0 < div2 true beta (l2 rm X i) := div2_pos rm true hbeta X i
      have hspos : 0 < div2 false beta (l2 rm X i) := div2_pos rm false hbeta X i
      have hsm : Real.sqrt (div2 true beta (l2 rm X i)) <
          Real.sqrt (div2 false beta (l2 rm X i)) :=
        Real.sqrt_lt_sqrt hmpos.le hlt
      have h0 := h j0
      simp only [contrast_normalize, Matrix.of_apply] at h0
      have hmne : Real.sqrt (div2 true beta (l2 rm X i)) ≠ 0 :=
        ne_of_gt (Real.sqrt_pos.2 hmpos)
      have hsne : Real.sqrt (div2 false beta (l2 rm X i)) ≠ 0 :=
        ne_of_gt (Real.sqrt_pos.2 hspos)
      rw [div_eq_div_iff hmne hsne] at h0
      exact absurd (mul_left_cancel₀ hj0 h0) (ne_of_gt hsm)
    · intro h j
      simp only [contrast_normalize, Matrix.of_apply, h j, zero_div]
  · intro h j
    simp only [contrast_normalize, Matrix.of_apply, div2_true, div2_false,
      max_eq_left h, add_zero]

/-- Witness for C7 (amended) on a concrete row and `beta = 1`. -/
theorem hard_soft_row_agreement_witness :
    0 < (1 : ℝ) ∧
      (((∀ j, contrast_normalize false true 1 (Matrix.of ![![(2 : ℝ), 0]]) 0 j =
          contrast_normalize false false 1 (Matrix.of ![![(2 : ℝ), 0]]) 0 j) ↔
        ∀ j, Xc false (Matrix.of ![![(2 : ℝ), 0]]) 0 j = 0) ∧
        ((1 : ℝ) ≤ l2 false (Matrix.of ![![(2 : ℝ), 0]]) 0 →
          ∀ j, contrast_normalize false true 1 (Matrix.of ![![(2 : ℝ), 0]]) 0 j =
            contrast_normalize false false 0 (Matrix.of ![![(2 : ℝ), 0]]) 0 j)) :=
  ⟨by norm_num,
    hard_soft_row_agreement false 1 (by norm_num) (Matrix.of ![![(2 : ℝ), 0]]) 0⟩

/-! ## Shape checking (`X.ndim != 2` guard)

The notebook's `contrast_normalize` receives a numpy ndarray and raises
`TypeError` before any computation when the array is not two-dimensional.
An ndarray is modelled as a shape (list of dimension sizes) together with
its row-major flat data. -/

/-- A numpy ndarray of reals: shape plus row-major flat data. -/
structure NDArray where
  shape : List ℕ
  data : List ℝ

/-- The number of dimensions `A.ndim`. -/
def NDArray.ndim (A : NDArray) : ℕ := A.shape.length

/-- Reinterpret row-major flat data as an `nr × nd` matrix. -/
def ofFlat (nr nd : ℕ) (data : List ℝ) : Matrix (Fin nr) (Fin nd) ℝ :=
  Matrix.of fun i j => data.getD (i * nd + j) 0

/-- Flatten a matrix back to row-major data. -/
def flatten {nr nd : ℕ} (M : Matrix (Fin nr) (Fin nd) ℝ) : List ℝ :=
  (List.finRange nr).flatMap fun i => (List.finRange nd).map fun j => M i j

/-- The normalizer on an ndarray: raise
`TypeError('contrast_normalize requires flat patches')` unless the input
is two-dimensional, otherwise return the normalized batch of the same
shape. -/
def contrast_normalizeE (remove_mean hard_beta : Bool) (beta : ℝ)
    (A : NDArray) : Except String NDArray :=
  match A.shape with
  | [nr, nd] =>
      Except.ok
        ⟨[nr, nd],
          flatten (contrast_normalize remove_mean hard_beta beta
            (ofFlat nr nd A.data))⟩
  | _ => Except.error "contrast_normalize requires flat patches"

/-- C4: `contrast_normalize` fails with the shape/type error exactly when
its input is not two-dimensional; on a non-2D input the error is the
immediate result and no normalized output is produced. -/
theorem contrast_normalizeE_error_iff (remove_mean hard_beta : Bool)
    (beta : ℝ) (A : NDArray) :
    (∃ e, contrast_normalizeE remove_mean hard_beta beta A =
        Except.error e) ↔ A.ndim ≠ 2 := by
  obtain ⟨shape, data⟩ := A
  rcases shape with _ | ⟨a, _ | ⟨b, _ | ⟨c, t⟩⟩⟩ <;>
    simp [contrast_normalizeE, NDArray.ndim]

/-- Row-major flattening produces `nr * nd` entries. -/
theorem flatten_length {nr nd : ℕ} (M : Matrix (Fin nr) (Fin nd) ℝ) :
    (flatten M).length = nr * nd := by
  rw [flatten, List.length_flatMap]
  simp only [Function.comp_def, List.length_map, List.length_finRange,
    List.map_const', List.sum_replicate, smul_eq_mul]

/-- C9: on every two-dimensional input the call succeeds and the output
has exactly the input's shape `N × D` (and `N * D` data entries). -/
theorem contrast_normalizeE_shape (remove_mean hard_beta : Bool)
    (beta : ℝ) (A : NDArray) (nr nd : ℕ) (h : A.shape = [nr, nd]) :
    ∃ B, contrast_normalizeE remove_mean hard_beta beta A = Except.ok B ∧
      B.shape = A.shape ∧ B.data.length = nr * nd := by
  obtain ⟨shape, data⟩ := A
  simp only at h
  subst h
  exact ⟨_, rfl, rfl, flatten_length _⟩

/-- Witness for C9 on the concrete 1×2 ndarray `[[3, 4]]`. -/
theorem contrast_normalizeE_shape_witness :
    (NDArray.mk [1, 2] [(3 : ℝ), 4]).shape = [1, 2] ∧
      ∃ B, contrast_normalizeE true true 1 (NDArray.mk [1, 2] [(3 : ℝ), 4]) =
          Except.ok B ∧
        B.shape = (NDArray.mk [1, 2] [(3 : ℝ), 4]).shape ∧
        B.data.length = 1 * 2 :=
  ⟨rfl, contrast_normalizeE_shape true true 1 _ 1 2 rfl⟩

/-! ## Whitening Estimator (`ZCA_whiten`) -/

/-- Modelled from the spec: `mean_and_std` is imported from the
repository's `util` module, whose source is not available here; per the
spec it returns the feature-wise mean vector (length D) across the N
patches, together with standard deviations which `ZCA_whiten` discards.
Only the mean is modelled. -/
def colMean {n d : ℕ} (X : Matrix (Fin n) (Fin d) ℝ) (j : Fin d) : ℝ :=
  (∑ i, X i j) / n

/-- Column centering `Xm = X - M`: the batch with the feature-wise mean
removed. -/
def centeredCols {n d : ℕ} (X : Matrix (Fin n) (Fin d) ℝ) :
    Matrix (Fin n) (Fin d) ℝ :=
  Matrix.of fun i j => X i j - colMean X j

/-- The sample covariance `C = np.dot(Xm.T, Xm) / (Xm.shape[0] - 1)`, with
the `N - 1` divisor. -/
def covC {n d : ℕ} (X : Matrix (Fin n) (Fin d) ℝ) :
    Matrix (Fin d) (Fin d) ℝ :=
  ((n : ℝ) - 1)⁻¹ • ((centeredCols X)ᵀ * centeredCols X)

/-- The whitening matrix `P = np.dot(np.sqrt(1.0 / (D + gamma)) * V, V.T)`:
the broadcast `np.sqrt(1.0 / (D + gamma)) * V` scales column `j` of `V` by
`√(1/(D_j + γ))`, and the result is multiplied by `Vᵀ`. -/
def ZCA_P {d : ℕ} (gamma : ℝ) (Dv : Fin d → ℝ)
    (V : Matrix (Fin d) (Fin d) ℝ) : Matrix (Fin d) (Fin d) ℝ :=
  (Matrix.of fun i j => Real.sqrt (1 / (Dv j + gamma)) * V i j) * Vᵀ

/-- The whitening fit: contrast-normalize the batch, compute the feature-wise
mean `M`, the sample covariance `C`, its symmetric eigendecomposition
`D, V = np.linalg.eigh(C)` (an external library routine, modelled as the
oracle argument `eigh`), the whitening matrix `P`, and return the triple
`(M, P, X)` where `X` is the normalized batch.  (The notebook's `print`,
`figure`, `plot`, `title` calls and its two always-true assertions have no
effect on the returned value.) -/
def ZCA_whiten {n d : ℕ} (remove_mean hard_beta : Bool) (beta gamma : ℝ)
    (eigh : Matrix (Fin d) (Fin d) ℝ → (Fin d → ℝ) × Matrix (Fin d) (Fin d) ℝ)
    (patches : Matrix (Fin n) (Fin d) ℝ) :
    (Fin d → ℝ) × Matrix (Fin d) (Fin d) ℝ × Matrix (Fin n) (Fin d) ℝ :=
  let X := contrast_normalize remove_mean hard_beta beta patches
  let M := colMean X
  let C := covC X
  let DV := eigh C
  (M, ZCA_P gamma DV.1 DV.2, X)

/-- Column scaling by `√(1/(D_j+γ))` is right multiplication by the
corresponding diagonal matrix. -/
theorem ZCA_P_eq_diag {d : ℕ} (gamma : ℝ) (Dv : Fin d → ℝ)
    (V : Matrix (Fin d) (Fin d) ℝ) :
    ZCA_P gamma Dv V =
      V * Matrix.diagonal (fun j => Real.sqrt (1 / (Dv j + gamma))) * Vᵀ := by
  unfold ZCA_P
  congr 1
  ext i j
  rw [Matrix.mul_diagonal]
  simp [mul_comm]

/-- C2: the whitening matrix returned by the fit equals
`V · diag(1/√(λ+γ)) · Vᵀ` built from the eigenvalues and eigenvectors
produced for the sample covariance of the normalized batch, and it is
symmetric. -/
theorem ZCA_P_formula_and_symm {n d : ℕ} (remove_mean hard_beta : Bool)
    (beta gamma : ℝ) (hgamma : 0 < gamma)
    (eigh : Matrix (Fin d) (Fin d) ℝ → (Fin d → ℝ) × Matrix (Fin d) (Fin d) ℝ)
    (patches : Matrix (Fin n) (Fin d) ℝ) (Dv : Fin d → ℝ)
    (V : Matrix (Fin d) (Fin d) ℝ)
    (hDV : eigh (covC (contrast_normalize remove_mean hard_beta beta patches)) =
      (Dv, V)) :
    (ZCA_whiten remove_mean hard_beta beta gamma eigh patches).2.1 =
        V * Matrix.diagonal (fun j => 1 / Real.sqrt (Dv j + gamma)) * Vᵀ ∧
      ((ZCA_whiten remove_mean hard_beta beta gamma eigh patches).2.1)ᵀ =
        (ZCA_whiten remove_mean hard_beta beta gamma eigh patches).2.1 := by
  have hP : (ZCA_whiten remove_mean hard_beta beta gamma eigh patches).2.1 =
      ZCA_P gamma Dv V := by
    simp [ZCA_whiten, hDV]
  have hdiag : (fun j => Real.sqrt (1 / (Dv j + gamma))) =
      fun j => 1 / Real.sqrt (Dv j + gamma) := by
    funext j
    rw [one_div, Real.sqrt_inv, one_div]
  constructor
  · rw [hP, ZCA_P_eq_diag, hdiag]
  · rw [hP, ZCA_P_eq_diag]
    simp [Matrix.transpose_mul, Matrix.mul_assoc]

/-- Witness for C2 with a concrete eigendecomposition oracle. -/
theorem ZCA_P_formula_and_symm_witness :
    (0 < (1 : ℝ) ∧
      (fun _ : Matrix (Fin 1) (Fin 1) ℝ =>
          ((fun _ : Fin 1 => (2 : ℝ)), Matrix.of ![![(3 : ℝ)]]))
        (covC (contrast_normalize true true 1 (Matrix.of ![![(5 : ℝ)]]))) =
        ((fun _ : Fin 1 => (2 : ℝ)), Matrix.of ![![(3 : ℝ)]])) ∧
      ((ZCA_whiten true true 1 1
            (fun _ => ((fun _ : Fin 1 => (2 : ℝ)), Matrix.of ![![(3 : ℝ)]]))
            (Matrix.of ![![(5 : ℝ)]])).2.1 =
          Matrix.of ![![(3 : ℝ)]] *
            Matrix.diagonal (fun _ : Fin 1 => 1 / Real.sqrt (2 + 1)) *
            (Matrix.of ![![(3 : ℝ)]])ᵀ ∧
        ((ZCA_whiten true true 1 1
            (fun _ => ((fun _ : Fin 1 => (2 : ℝ)), Matrix.of ![![(3 : ℝ)]]))
            (Matrix.of ![![(5 : ℝ)]])).2.1)ᵀ =
          (ZCA_whiten true true 1 1
            (fun _ => ((fun _ : Fin 1 => (2 : ℝ)), Matrix.of ![![(3 : ℝ)]]))
            (Matrix.of ![![(5 : ℝ)]])).2.1) :=
  ⟨⟨by norm_num, rfl⟩,
    ZCA_P_formula_and_symm true true 1 1 (by norm_num) _ _ _ _ rfl⟩

/-- C6: if the sample covariance seen by the fit equals the identity and
the oracle returns a genuine orthonormal eigendecomposition of it, then
the whitening matrix is the scalar matrix `(1/√(1+γ)) · I`. -/
theorem ZCA_identity_cov {n d : ℕ} (remove_mean hard_beta : Bool)
    (beta gamma : ℝ) (hgamma : 0 < gamma)
    (eigh : Matrix (Fin d) (Fin d) ℝ → (Fin d → ℝ) × Matrix (Fin d) (Fin d) ℝ)
    (patches : Matrix (Fin n) (Fin d) ℝ) (Dv : Fin d → ℝ)
    (V : Matrix (Fin d) (Fin d) ℝ)
    (hDV : eigh (covC (contrast_normalize remove_mean hard_beta beta patches)) =
      (Dv, V))
    (hC : covC (contrast_normalize remove_mean hard_beta beta patches) = 1)
    (horth : Vᵀ * V = 1)
    (hdec : V * Matrix.diagonal Dv * Vᵀ =
      covC (contrast_normalize remove_mean hard_beta beta patches)) :
    (ZCA_whiten remove_mean hard_beta beta gamma eigh patches).2.1 =
      (1 / Real.sqrt (1 + gamma)) • (1 : Matrix (Fin d) (Fin d) ℝ) := by
  have hVVt : V * Vᵀ = 1 := Matrix.mul_eq_one_comm.mp horth
  have hdiag : Matrix.diagonal Dv = (1 : Matrix (Fin d) (Fin d) ℝ) := by
    calc Matrix.diagonal Dv
        = (Vᵀ * V) * Matrix.diagonal Dv * (Vᵀ * V) := by
          rw [horth, Matrix.one_mul, Matrix.mul_one]
      _ = Vᵀ * (V * Matrix.diagonal Dv * Vᵀ) * V := by
          simp only [Matrix.mul_assoc]
      _ = Vᵀ * 1 * V := by rw [hdec, hC]
      _ = 1 := by rw [Matrix.mul_one, horth]
  have hDv : ∀ j, Dv j = 1 := by
    intro j
    have hjj := congrFun (congrFun hdiag j) j
    simpa [Matrix.diagonal_apply_eq, Matrix.one_apply_eq] using hjj
  have hP : (ZCA_whiten remove_mean hard_beta beta gamma eigh patches).2.1 =
      ZCA_P gamma Dv V := by
    simp [ZCA_whiten, hDV]
  rw [hP, ZCA_P_eq_diag]
  have hfun : (fun j : Fin d => Real.sqrt (1 / (Dv j + gamma))) =
      fun _ : Fin d => Real.sqrt (1 / (1 + gamma)) := by
    funext j
    rw [hDv j]
  have hconst : Matrix.diagonal (fun _ : Fin d => Real.sqrt (1 / (1 + gamma))) =
      Real.sqrt (1 / (1 + gamma)) • (1 : Matrix (Fin d) (Fin d) ℝ) := by
    have h1 : (fun _ : Fin d => Real.sqrt (1 / (1 + gamma))) =
        Real.sqrt (1 / (1 + gamma)) • (fun _ : Fin d => (1 : ℝ)) := by
      funext j
      simp
    rw [h1, Matrix.diagonal_smul, Matrix.diagonal_one]
  rw [hfun, hconst, Matrix.mul_smul, Matrix.smul_mul, Matrix.mul_one, hVVt,
    one_div, Real.sqrt_inv, one_div]

/-- Witness for C6: the batch `[[-1], [0], [1]]` normalizes to itself
(each row's clamped squared norm is 1) and has identity sample covariance;
with `γ = 3` the whitening matrix is `(1/√4) · I`. -/
theorem ZCA_identity_cov_witness :
    (0 < (3 : ℝ) ∧
      covC (contrast_normalize false true 1
        (Matrix.of ![![(-1 : ℝ)], ![0], ![1]])) = 1) ∧
      (ZCA_whiten false true 1 3
          (fun _ => ((fun _ : Fin 1 => (1 : ℝ)), (1 : Matrix (Fin 1) (Fin 1) ℝ)))
          (Matrix.of ![![(-1 : ℝ)], ![0], ![1]])).2.1 =
        (1 / Real.sqrt (1 + 3)) • (1 : Matrix (Fin 1) (Fin 1) ℝ) := by
  have hcn : contrast_normalize false true 1
      (Matrix.of ![![(-1 : ℝ)], ![0], ![1]]) =
      Matrix.of ![![(-1 : ℝ)], ![0], ![1]] := by
    ext i j
    fin_cases i <;> fin_cases j <;>
      simp [contrast_normalize, Xc, xm, l2, div2_true, Fin.sum_univ_one] <;>
      norm_num
  have hC : covC (contrast_normalize false true 1
      (Matrix.of ![![(-1 : ℝ)], ![0], ![1]])) = 1 := by
    rw [hcn]
    ext j k
    fin_cases j <;> fin_cases k <;>
      simp [covC, centeredCols, colMean, Matrix.mul_apply,
        Fin.sum_univ_three, Matrix.one_apply] <;>
      norm_num
  refine ⟨⟨by norm_num, hC⟩, ?_⟩
  exact ZCA_identity_cov false true 1 3 (by norm_num) _ _ _ _ rfl hC
    (by simp) (by rw [hC]; simp)

/-- C8 (counterexample): two distinct batches — one the row permutation of
the other — on which the fit produces the same mean vector `M` and the
same whitening matrix `P`, yet different return values, because the
returned tuple also carries the contrast-normalized batch as a third
component: `ZCA_whiten` returns the triple `(M, P, X)`, not exactly the
pair `(M, P)`. -/
theorem ZCA_whiten_not_pair :
    (ZCA_whiten true true 10 1 (fun C => (fun j => C j j, 1))
          (Matrix.of ![![(2 : ℝ), 0], ![0, 2]])).1 =
        (ZCA_whiten true true 10 1 (fun C => (fun j => C j j, 1))
          (Matrix.of ![![(0 : ℝ), 2], ![2, 0]])).1 ∧
      (ZCA_whiten true true 10 1 (fun C => (fun j => C j j, 1))
          (Matrix.of ![![(2 : ℝ), 0], ![0, 2]])).2.1 =
        (ZCA_whiten true true 10 1 (fun C => (fun j => C j j, 1))
          (Matrix.of ![![(0 : ℝ), 2], ![2, 0]])).2.1 ∧
      ZCA_whiten true true 10 1 (fun C => (fun j => C j j, 1))
          (Matrix.of ![![(2 : ℝ), 0], ![0, 2]]) ≠
        ZCA_whiten true true 10 1 (fun C => (fun j => C j j, 1))
          (Matrix.of ![![(0 : ℝ), 2], ![2, 0]]) := by
  have s10 : 0 < Real.sqrt 10 := Real.sqrt_pos.2 (by norm_num)
  have hcnA : contrast_normalize true true 10
      (Matrix.of ![![(2 : ℝ), 0], ![0, 2]]) =
      Matrix.of ![![1 / Real.sqrt 10, -(1 / Real.sqrt 10)],
        ![-(1 / Real.sqrt 10), 1 / Real.sqrt 10]] := by
    ext i j
    fin_cases i <;> fin_cases j <;>
      simp [contrast_normalize, Xc, xm, rowMean, l2, div2_true,
        Fin.sum_univ_two] <;>
      norm_num [max_eq_right, neg_div]
  have hcnB : contrast_normalize true true 10
      (Matrix.of ![![(0 : ℝ), 2], ![2, 0]]) =
      Matrix.of ![![-(1 / Real.sqrt 10), 1 / Real.sqrt 10],
        ![1 / Real.sqrt 10, -(1 / Real.sqrt 10)]] := by
    ext i j
    fin_cases i <;> fin_cases j <;>
      simp [contrast_normalize, Xc, xm, rowMean, l2, div2_true,
        Fin.sum_univ_two] <;>
      norm_num [max_eq_right, neg_div]
  refine ⟨?_, ?_, ?_⟩
  · show colMean (contrast_normalize true true 10
        (Matrix.of ![![(2 : ℝ), 0], ![0, 2]])) =
      colMean (contrast_normalize true true 10
        (Matrix.of ![![(0 : ℝ), 2], ![2, 0]]))
    rw [hcnA, hcnB]
    funext j
    fin_cases j <;>
      simp [colMean, Fin.sum_univ_two] <;>
      ring_nf
  · have hcov : covC (contrast_normalize true true 10
        (Matrix.of ![![(2 : ℝ), 0], ![0, 2]])) =
        covC (contrast_normalize true true 10
          (Matrix.of ![![(0 : ℝ), 2], ![2, 0]])) := by
      rw [hcnA, hcnB]
      ext j k
      fin_cases j <;> fin_cases k <;>
        simp [covC, centeredCols, colMean, Matrix.mul_apply,
          Fin.sum_univ_two] <;>
        ring_nf
    show ZCA_P 1 _ _ = ZCA_P 1 _ _
    rw [hcov]
  · intro h
    have h22 := congrArg (fun t => t.2.2 0 0) h
    simp only [ZCA_whiten] at h22
    rw [hcnA, hcnB] at h22
    simp only [Matrix.of_apply] at h22
    norm_num at h22
    have hpos : 0 < (Real.sqrt 10)⁻¹ := inv_pos.2 s10
    linarith

/-- C8 (amended): the whitening fit returns the triple of the feature-wise
mean of the normalized batch (a length-D vector), the whitening matrix
built from the oracle's eigendecomposition of the sample covariance, and
the contrast-normalized batch itself. -/
theorem ZCA_whiten_components {n d : ℕ} (remove_mean hard_beta : Bool)
    (beta gamma : ℝ) (hgamma : 0 < gamma)
    (eigh : Matrix (Fin d) (Fin d) ℝ → (Fin d → ℝ) × Matrix (Fin d) (Fin d) ℝ)
    (patches : Matrix (Fin n) (Fin d) ℝ) :
    (ZCA_whiten remove_mean hard_beta beta gamma eigh patches).1 =
        (fun j => (∑ i, contrast_normalize remove_mean hard_beta beta patches i j) / n) ∧
      (ZCA_whiten remove_mean hard_beta beta gamma eigh patches).2.1 =
        ZCA_P gamma
          (eigh (covC (contrast_normalize remove_mean hard_beta beta patches))).1
          (eigh (covC (contrast_normalize remove_mean hard_beta beta patches))).2 ∧
      (ZCA_whiten remove_mean hard_beta beta gamma eigh patches).2.2 =
        contrast_normalize remove_mean hard_beta beta patches :=
  ⟨rfl, rfl, rfl⟩

/-- Witness for C8 (amended) at a concrete batch, configuration and
oracle. -/
theorem ZCA_whiten_components_witness :
    0 < (1 : ℝ) ∧
      ((ZCA_whiten true true 1 1
            (fun _ => ((fun _ : Fin 1 => (1 : ℝ)), (1 : Matrix (Fin 1) (Fin 1) ℝ)))
            (Matrix.of ![![(4 : ℝ)]])).1 =
          (fun j => (∑ i, contrast_normalize true true 1
            (Matrix.of ![![(4 : ℝ)]]) i j) / 1) ∧
        (ZCA_whiten true true 1 1
            (fun _ => ((fun _ : Fin 1 => (1 : ℝ)), (1 : Matrix (Fin 1) (Fin 1) ℝ)))
            (Matrix.of ![![(4 : ℝ)]])).2.1 =
          ZCA_P 1
            ((fun _ => ((fun _ : Fin 1 => (1 : ℝ)), (1 : Matrix (Fin 1) (Fin 1) ℝ)))
              (covC (contrast_normalize true true 1 (Matrix.of ![![(4 : ℝ)]])))).1
            ((fun _ => ((fun _ : Fin 1 => (1 : ℝ)), (1 : Matrix (Fin 1) (Fin 1) ℝ)))
              (covC (contrast_normalize true true 1 (Matrix.of ![![(4 : ℝ)]])))).2 ∧
        (ZCA_whiten true true 1 1
            (fun _ => ((fun _ : Fin 1 => (1 : ℝ)), (1 : Matrix (Fin 1) (Fin 1) ℝ)))
            (Matrix.of ![![(4 : ℝ)]])).2.2 =
          contrast_normalize true true 1 (Matrix.of ![![(4 : ℝ)]])) := by
  refine ⟨by norm_num, ?_⟩
  simpa using ZCA_whiten_components true true 1 1 (by norm_num)
    (fun _ => ((fun _ : Fin 1 => (1 : ℝ)), (1 : Matrix (Fin 1) (Fin 1) ℝ)))
    (Matrix.of ![![(4 : ℝ)]])

end PatchFeatures

end
